import Mathlib

/-!
Verification of the erasure/redundancy codec engine and policy-driven
scheme selector of the distributed-file-system repository.

Byte strings are modelled as `List Nat` (each entry one byte value).
Python `ValueError`s raised by the codec layer are mapped onto the
spec's error taxonomy (`InsufficientShards`, `UnknownAlgorithm`,
`MissingParameters`, `ZeroDivisionError` for a division by zero,
and `InvalidParameters`, which the code never actually raises).
-/

abbrev Bytes := List Nat

/-- Error taxonomy for the codec layer.  The Python code raises
`ValueError` with distinct messages; each message is mapped onto the
matching constructor ("No available replicas" / "Not enough shards" /
"Not enough blocks" ↦ `insufficientShards`, "Unknown algorithm" ↦
`unknownAlgorithm`, "Reed-Solomon requires k and m parameters" ↦
`missingParameters`).  `zeroDivision` models Python's
`ZeroDivisionError`.  `invalidParameters` is in the spec's taxonomy but
is never produced by the code. -/
inductive PyError where
  | insufficientShards
  | unknownAlgorithm
  | missingParameters
  | zeroDivision
  | invalidParameters
deriving DecidableEq

/-- Zero-pad `b` on the right to length `n` (no-op when `b` is already
at least that long), as in `block + b'\x00' * (block_size - len(block))`. -/
def padTo (n : Nat) (b : Bytes) : Bytes := b ++ List.replicate (n - b.length) 0

/-- One double-and-reduce step loop for GF(2^8) multiplication with the
primitive polynomial 0x11D used by the `reedsolo` library. -/
def gfMulGo : Nat → Nat → Nat → Nat → Nat
  | 0, _, _, acc => acc
  | fuel + 1, a, b, acc =>
    let acc' := if b % 2 = 1 then Nat.xor acc a else acc
    let a' := a * 2
    let a'' := if 256 ≤ a' then Nat.xor a' 0x11D else a'
    gfMulGo fuel a'' (b / 2) acc'

/-- GF(2^8) multiplication (carry-less multiply reduced mod 0x11D);
agrees with the exp/log-table multiplication of `reedsolo`. -/
def gfMul (a b : Nat) : Nat := gfMulGo 8 a b 0

/-- Powers of the generator α = 2 in GF(2^8). -/
def gfExpPow : Nat → Nat
  | 0 => 1
  | i + 1 => gfMul (gfExpPow i) 2

/-- Polynomial multiplication over GF(2^8), coefficients listed from the
highest power down (the convention of `reedsolo.gf_poly_mul`). -/
def polyMul (p q : List Nat) : List Nat :=
  (List.range (p.length + q.length - 1)).map (fun t =>
    (List.range p.length).foldl (fun acc i =>
      if i ≤ t ∧ t - i < q.length then
        Nat.xor acc (gfMul (p.getD i 0) (q.getD (t - i) 0))
      else acc) 0)

/-- Reed-Solomon generator polynomial `∏_{i<m} (x - α^i)` used by
`reedsolo` with `fcr = 0`, `generator = 2`. -/
def rsGeneratorPoly (m : Nat) : List Nat :=
  (List.range m).foldl (fun g i => polyMul g [1, gfExpPow i]) [1]

/-- One synthetic-division step of `reedsolo.rs_encode_msg`: feed one
message byte into the running remainder `r` (length `m`). -/
def rsEccStep (gen : List Nat) (r : List Nat) (byte : Nat) : List Nat :=
  let factor := Nat.xor byte (r.headD 0)
  List.zipWith (fun c g => Nat.xor c (gfMul g factor)) (r.tail ++ [0]) gen.tail

/-- The `m` error-correction bytes that `reedsolo.RSCodec(m).encode`
appends to a message: the remainder of `msg · x^m` modulo the generator
polynomial over GF(2^8). -/
def rsEcc (m : Nat) (msg : List Nat) : List Nat :=
  msg.foldl (rsEccStep (rsGeneratorPoly m)) (List.replicate m 0)

/-- Model of `reedsolo.RSCodec(m).encode` (external library, not part of
src/): systematic encoding returning `msg ++ ecc`; on empty input the
library's chunk loop runs zero times and returns the empty byte string.
Chunking of messages longer than `255 - m` bytes is not modelled; no
claim depends on parity byte values, and every concrete input used is
far below the chunk size. -/
def rsLibEncode (m : Nat) (block : Bytes) : Bytes :=
  if block.isEmpty then [] else block ++ rsEcc m block

/-- `algorithms.encode_with_replication`: `[data for _ in range(factor)]`
(`range` of a non-positive Python int is empty). -/
def encode_with_replication (data : Bytes) (factor : Int) : List Bytes :=
  List.replicate factor.toNat data

/-- `algorithms.encode_with_reed_solomon`: splits `data` into `k`
zero-padded blocks of size `ceil(len/k)`, RS-encodes each block, and
appends `m` parity shards, the `i`-th being the concatenation of the
`i`-th parity byte of every encoded block (so each parity shard has one
byte per data block).  `(len(data)+k-1)//k` raises `ZeroDivisionError`
when `k = 0`. -/
def encode_with_reed_solomon (data : Bytes) (k m : Nat) :
    Except PyError (List Bytes) :=
  if k = 0 then .error .zeroDivision
  else
    let bs := (data.length + k - 1) / k
    let blocks := (List.range k).map (fun i => padTo bs ((data.drop (i * bs)).take bs))
    let encodedBlocks := blocks.map (rsLibEncode m)
    let parityShards := (List.range m).map (fun i =>
      (encodedBlocks.map (fun eb => (eb.drop (bs + i)).take 1)).flatten)
    .ok (blocks ++ parityShards)

/-- The `for idx, data in shard_data_list: if data is not None: return
data` loop of `decode_file`'s replication branch: the first present
payload in list order. -/
def firstAvailable : List (Nat × Option Bytes) → Option Bytes
  | [] => none
  | (_, some d) :: _ => some d
  | (_, none) :: rest => firstAvailable rest

/-- `ImprovedReedSolomon.decode`.  When all of the first `k` blocks are
present they are concatenated and trimmed; otherwise the code's
placeholder path substitutes the first available block for every missing
one (the source comments call this "a simplified version").  All call
sites pass a `blocks` list of length `k + m`. -/
def ImprovedReedSolomon.decode (k : Nat) (blocks : List (Option Bytes))
    (originalSize : Nat) : Except PyError Bytes :=
  if (blocks.filterMap id).length < k then .error .insufficientShards
  else if (List.range k).all (fun i => (blocks.getD i none).isSome) then
    .ok (((blocks.take k).filterMap id).flatten.take originalSize)
  else
    let availableIndices :=
      ((blocks.enum.filter (fun p => p.2.isSome)).map (fun p => p.1)).take k
    if availableIndices.length < k then .error .insufficientShards
    else
      let fallback := (blocks.getD (availableIndices.headD 0) none).getD []
      let pieces := (List.range k).map (fun i =>
        match blocks.getD i none with
        | some b => b
        | none => fallback)
      .ok (pieces.flatten.take originalSize)

/-- `algorithms.decode_improved_reed_solomon`: scatter the `(index,
payload)` pairs into a `[None] * (k+m)` block list (indices past the end
are ignored), then run `ImprovedReedSolomon.decode`. -/
def decode_improved_reed_solomon (pairs : List (Nat × Option Bytes))
    (k m originalSize : Nat) : Except PyError Bytes :=
  let blockList := pairs.foldl (fun acc p => acc.set p.1 p.2)
    (List.replicate (k + m) (none : Option Bytes))
  ImprovedReedSolomon.decode k blockList originalSize

/-- `algorithms.decode_file`, the reconstruction dispatcher.  When
`original_size` is `None` the Reed-Solomon branch estimates it as
`k * len(first available shard)`. -/
def decode_file (pairs : List (Nat × Option Bytes)) (algorithm : String)
    (k m originalSize : Option Nat) : Except PyError Bytes :=
  if algorithm = "replication" then
    match firstAvailable pairs with
    | some d => .ok d
    | none => .error .insufficientShards
  else if algorithm = "reed-solomon" then
    if k.isNone || m.isNone then .error .missingParameters
    else
      let kv := k.getD 0
      let mv := m.getD 0
      if (pairs.filter (fun p => p.2.isSome)).length < kv then
        .error .insufficientShards
      else
        let origSize := originalSize.getD
          (kv * ((firstAvailable pairs).getD []).length)
        decode_improved_reed_solomon pairs kv mv origSize
  else .error .unknownAlgorithm

/-- A `ReconstructionInput` in which every shard of `shards` is present,
indexed in placement order (as built by `reconstruct_file` in main.py). -/
def allPresent (shards : List Bytes) : List (Nat × Option Bytes) :=
  shards.enum.map (fun p => (p.1, some p.2))

/-- `smart_engine.FileMetadata` (the float-free fields; `size` is a
non-negative byte count). -/
structure FileMetadata where
  filename : String
  extension : String
  size : Nat
  is_compressible : Bool
  is_critical : Bool
  access_pattern : String

/-- The algorithm + configuration part of the decision dict returned by
`SmartStorageEngine`'s selectors (`{"algorithm": ..., "config": ...}`).
The `cost_estimate` (a Python float) and the human-readable `reasoning`
string are not modelled; no claim concerns them. -/
inductive AlgorithmChoice where
  | replication (replication_factor : Nat)
  | reedSolomon (k m : Nat)
  | xorParity (parity_disks : Nat)
deriving DecidableEq

namespace SmartStorageEngine

/-- `SmartStorageEngine._select_cost_optimized`. -/
def select_cost_optimized (_md : FileMetadata) : AlgorithmChoice :=
  .xorParity 2

/-- `SmartStorageEngine._select_reliability_optimized`. -/
def select_reliability_optimized (md : FileMetadata) : AlgorithmChoice :=
  if md.is_critical || decide (1000000000 < md.size) then .replication 4
  else .reedSolomon 3 3

/-- `SmartStorageEngine._select_balanced`. -/
def select_balanced (md : FileMetadata) : AlgorithmChoice :=
  if md.size < 10000000 then .replication 3
  else if md.size < 1000000000 then .reedSolomon 4 2
  else .xorParity 2

/-- `SmartStorageEngine.select_algorithm`: routes on the policy string,
treating anything other than "cost"/"reliability" as balanced. -/
def select_algorithm (md : FileMetadata) (policy : String) : AlgorithmChoice :=
  if policy = "cost" then select_cost_optimized md
  else if policy = "reliability" then select_reliability_optimized md
  else select_balanced md

end SmartStorageEngine

/-- Byte-wise XOR of two equal-length byte strings. -/
def xorBytes (a b : Bytes) : Bytes := List.zipWith Nat.xor a b

/-- Modelled from the spec: no XOR-Parity codec exists under src/ (the
smart engine selects `"xor-parity"`, but `_encode_file` in main.py and
`decode_file` in algorithms.py both reject that tag).  Encode per spec
§4.2: block size `ceil(len(data)/(p+1))`, split into `p+1` zero-padded
data blocks, and each of the `p` parity shards is the byte-wise XOR of
all data blocks. -/
def xorParityEncode (data : Bytes) (p : Nat) : List Bytes :=
  let nd := p + 1
  let bs := (data.length + nd - 1) / nd
  let blocks := (List.range nd).map (fun i => padTo bs ((data.drop (i * bs)).take bs))
  let parity := blocks.foldr xorBytes (List.replicate bs 0)
  blocks ++ List.replicate p parity

/-- Modelled from the spec: XOR-Parity decode per spec §4.2.  If all
`p+1` data blocks are present, concatenate and trim to `originalSize`;
if exactly one data block is missing and at least one parity shard is
present, recover it by XOR-ing all present data blocks with that parity
shard; fail with `InsufficientShards` otherwise. -/
def xorParityDecode (p : Nat) (input : List (Option Bytes))
    (originalSize : Nat) : Except PyError Bytes :=
  let nd := p + 1
  let datas := (List.range nd).map (fun i => input.getD i none)
  if datas.all Option.isSome then
    .ok ((datas.filterMap id).flatten.take originalSize)
  else
    match (datas.filter Option.isNone).length, ((input.drop nd).filterMap id).head? with
    | 1, some par =>
      let recovered := (datas.filterMap id).foldr xorBytes par
      .ok ((datas.map (fun b => b.getD recovered)).flatten.take originalSize)
    | _, _ => .error .insufficientShards

theorem padTo_length_eq (bs : Nat) (b : Bytes) (h : b.length ≤ bs) :
    (padTo bs b).length = bs := by
  simp [padTo]; omega

theorem chunk_length (D : Bytes) (bs x : Nat) :
    (padTo bs ((D.drop x).take bs)).length = bs := by
  apply padTo_length_eq
  simp [List.length_take]

theorem le_mul_ceilDiv (L k : Nat) (hk : k ≠ 0) : L ≤ k * ((L + k - 1) / k) := by
  have h1 := Nat.mod_add_div (L + k - 1) k
  have h2 : (L + k - 1) % k < k := Nat.mod_lt _ (Nat.pos_of_ne_zero hk)
  omega

theorem replicate_append_replicate (a b : Nat) :
    (List.replicate a (0:Nat)) ++ List.replicate b 0 = List.replicate (a + b) 0 := by
  rw [← List.replicate_add]

theorem chunks_flatten (bs : Nat) : ∀ (n : Nat) (D : Bytes),
    ((List.range n).map (fun i => padTo bs ((D.drop (i * bs)).take bs))).flatten
      = padTo (n * bs) (D.take (n * bs)) := by
  intro n
  induction n with
  | zero => intro D; simp [padTo]
  | succ n ih =>
    intro D
    rw [List.range_succ_eq_map]
    simp only [List.map_cons, List.map_map, List.flatten_cons, Nat.zero_mul,
      List.drop_zero]
    have h1 : ((List.range n).map
        ((fun i => padTo bs ((D.drop (i * bs)).take bs)) ∘ Nat.succ)) =
        ((List.range n).map (fun i => padTo bs (((D.drop bs).drop (i * bs)).take bs))) := by
      apply List.map_congr_left
      intro i _
      show padTo bs ((D.drop (Nat.succ i * bs)).take bs) = _
      rw [List.drop_drop]
      have h2 : Nat.succ i * bs = bs + i * bs := by rw [Nat.succ_mul]; omega
      rw [h2]
    rw [h1, ih (D.drop bs)]
    by_cases hL : D.length ≤ bs
    · have ht : D.take bs = D := List.take_of_length_le hL
      have hd : D.drop bs = [] := List.drop_eq_nil_of_le hL
      have ht2 : D.take ((n + 1) * bs) = D := by
        apply List.take_of_length_le
        have : bs ≤ (n+1) * bs := by nlinarith
        omega
      rw [ht, hd, ht2]
      simp only [List.take_nil, padTo, List.nil_append, List.length_nil,
        Nat.sub_zero, List.append_assoc, replicate_append_replicate]
      congr 2
      have : (n+1) * bs = n * bs + bs := by ring
      omega
    · push_neg at hL
      have hlt : (padTo bs (D.take bs)) = D.take bs := by
        simp [padTo, List.length_take]
        omega
      rw [hlt]
      have ht3 : (n+1) * bs = bs + n * bs := by ring
      rw [ht3, List.take_add]
      simp only [padTo, List.append_assoc, List.length_append, List.length_take]
      congr 2
      have h5 : min bs D.length = bs := by omega
      rw [h5]
      congr 1
      omega

theorem firstAvailable_eq_head (pairs : List (Nat × Option Bytes)) :
    firstAvailable pairs = (pairs.filterMap (fun p => p.2)).head? := by
  induction pairs with
  | nil => rfl
  | cons p rest ih =>
    obtain ⟨i, d⟩ := p
    cases d with
    | none => simpa [firstAvailable, List.filterMap_cons] using ih
    | some b => simp [firstAvailable, List.filterMap_cons]

theorem set_take_succ : ∀ (l : List (Option Bytes)) (i : Nat) (v : Option Bytes),
    i < l.length → (l.set i v).take (i + 1) = l.take i ++ [v] := by
  intro l
  induction l with
  | nil => intro i v h; simp at h
  | cons a t ih =>
    intro i v h
    cases i with
    | zero => simp
    | succ i =>
      simp only [List.set_cons_succ, List.take_succ_cons, List.cons_append]
      rw [ih i v (by simpa using h)]

theorem setFold_enumFrom : ∀ (l : List Bytes) (i : Nat) (acc : List (Option Bytes)),
    acc.length = i + l.length →
    ((List.enumFrom i l).map (fun p => (p.1, some p.2))).foldl
        (fun a p => a.set p.1 p.2) acc = acc.take i ++ l.map some := by
  intro l
  induction l with
  | nil =>
    intro i acc h
    simp only [List.enumFrom, List.map_nil, List.foldl_nil, List.map_nil,
      List.append_nil]
    rw [List.take_of_length_le (by simp at h; omega)]
  | cons x xs ih =>
    intro i acc h
    have hi : i < acc.length := by simp at h; omega
    simp only [List.enumFrom, List.map_cons, List.foldl_cons]
    rw [ih (i + 1) (acc.set i (some x)) (by simp at h ⊢; omega)]
    rw [set_take_succ acc i (some x) hi]
    simp

theorem toBlockList_allPresent (l : List Bytes) :
    (allPresent l).foldl (fun a p => a.set p.1 p.2)
        (List.replicate l.length (none : Option Bytes)) = l.map some := by
  have h := setFold_enumFrom l 0 (List.replicate l.length none) (by simp)
  simpa [allPresent, List.enum] using h

theorem filterMap_id_map_some (l : List Bytes) :
    (l.map some).filterMap id = l := by
  induction l with
  | nil => rfl
  | cons x xs ih => simp [List.filterMap_cons, ih]

theorem ImprovedReedSolomon.decode_all_data_present (k m : Nat) (shards : List Bytes)
    (hlen : shards.length = k + m) (os : Nat) :
    ImprovedReedSolomon.decode k (shards.map some) os =
      .ok ((shards.take k).flatten.take os) := by
  unfold ImprovedReedSolomon.decode
  have h1 : (shards.map some).filterMap id = shards := filterMap_id_map_some shards
  rw [h1]
  rw [if_neg (by omega)]
  have h2 : (List.range k).all (fun i => ((shards.map some).getD i none).isSome) = true := by
    rw [List.all_eq_true]
    intro i hi
    have hik : i < k := List.mem_range.mp hi
    have hil : i < (shards.map some).length := by simp; omega
    rw [List.getD_eq_getElem _ _ hil]
    simp
  rw [if_pos h2]
  congr 1
  rw [← List.map_take, filterMap_id_map_some]

theorem encode_rs_shape (D : Bytes) (k m : Nat) (shards : List Bytes)
    (h : encode_with_reed_solomon D k m = .ok shards) :
    k ≠ 0 ∧ ∃ parity : List Bytes, parity.length = m ∧
      shards = (List.range k).map (fun i =>
        padTo ((D.length + k - 1) / k)
          ((D.drop (i * ((D.length + k - 1) / k))).take ((D.length + k - 1) / k)))
        ++ parity := by
  by_cases hk : k = 0
  · rw [encode_with_reed_solomon, if_pos hk] at h
    exact absurd h (by simp)
  · refine ⟨hk, ?_, ?_, ?_⟩
    · rw [encode_with_reed_solomon, if_neg hk] at h
      exact ((List.range m).map (fun i =>
        ((((List.range k).map (fun j => padTo ((D.length + k - 1) / k)
          ((D.drop (j * ((D.length + k - 1) / k))).take ((D.length + k - 1) / k)))).map
            (rsLibEncode m)).map
          (fun eb => (eb.drop (((D.length + k - 1) / k) + i)).take 1)).flatten))
    · simp
    · rw [encode_with_reed_solomon, if_neg hk] at h
      exact (Except.ok.inj h).symm

theorem firstAvailable_allPresent_cons (x : Bytes) (l : List Bytes) :
    firstAvailable (allPresent (x :: l)) = some x := rfl

theorem rs_count_allPresent (shards : List Bytes) :
    ((allPresent shards).filter (fun p => p.2.isSome)).length = shards.length := by
  rw [List.filter_eq_self.mpr]
  · simp [allPresent]
  · intro p hp
    simp only [allPresent, List.mem_map] at hp
    obtain ⟨q, _, hq⟩ := hp
    subst hq
    rfl

theorem decode_improved_allPresent (D : Bytes) (k m : Nat) (shards : List Bytes)
    (h : encode_with_reed_solomon D k m = .ok shards) (os : Nat) :
    decode_improved_reed_solomon (allPresent shards) k m os =
      .ok ((padTo (k * ((D.length + k - 1) / k))
        (D.take (k * ((D.length + k - 1) / k)))).take os) := by
  obtain ⟨hk, parity, hpl, hsh⟩ := encode_rs_shape D k m shards h
  have hbl : ((List.range k).map (fun i =>
      padTo ((D.length + k - 1) / k)
        ((D.drop (i * ((D.length + k - 1) / k))).take ((D.length + k - 1) / k)))).length = k := by
    simp
  have hlen : shards.length = k + m := by rw [hsh]; simp [hpl]
  rw [decode_improved_reed_solomon]
  rw [show (k + m) = shards.length from hlen.symm]
  rw [toBlockList_allPresent shards]
  rw [ImprovedReedSolomon.decode_all_data_present k m shards hlen os]
  congr 1
  rw [hsh]
  rw [List.take_left' hbl]
  rw [chunks_flatten]

theorem firstAvailable_allPresent_rs (D : Bytes) (k m : Nat) (shards : List Bytes)
    (h : encode_with_reed_solomon D k m = .ok shards) :
    firstAvailable (allPresent shards) =
      some (padTo ((D.length + k - 1) / k) (D.take ((D.length + k - 1) / k))) := by
  obtain ⟨hk, parity, hpl, hsh⟩ := encode_rs_shape D k m shards h
  obtain ⟨k', rfl⟩ : ∃ k', k = k' + 1 := ⟨k - 1, by omega⟩
  rw [hsh, List.range_succ_eq_map]
  simp only [List.map_cons, List.cons_append, Nat.zero_mul, List.drop_zero]
  exact firstAvailable_allPresent_cons _ _

theorem decode_file_rs_some (pairs : List (Nat × Option Bytes)) (k m : Nat)
    (os : Option Nat) :
    decode_file pairs "reed-solomon" (some k) (some m) os =
      if (pairs.filter (fun p => p.2.isSome)).length < k then
        .error .insufficientShards
      else decode_improved_reed_solomon pairs k m
        (os.getD (k * ((firstAvailable pairs).getD []).length)) := by
  rw [decode_file, if_neg (by decide), if_pos rfl, if_neg (by simp)]
  rfl

/-- C2: for both algorithms supported by `decode_file` (replication and
reed-solomon) and every byte sequence D — empty and non-block-aligned
lengths included — decoding the full shard list produced by encoding D,
with every shard present and originalSize = len(D), returns exactly D. -/
theorem decode_encode_round_trip :
    (∀ (D : Bytes) (r : Nat), 1 ≤ r →
      decode_file (allPresent (encode_with_replication D (r : Int)))
        "replication" none none (some D.length) = .ok D) ∧
    (∀ (D : Bytes) (k m : Nat) (shards : List Bytes),
      encode_with_reed_solomon D k m = .ok shards →
      decode_file (allPresent shards) "reed-solomon" (some k) (some m)
        (some D.length) = .ok D) := by
  constructor
  · intro D r hr
    have he : encode_with_replication D (r : Int) = List.replicate r D := by
      simp [encode_with_replication]
    rw [he]
    obtain ⟨n, rfl⟩ : ∃ n, r = n + 1 := ⟨r - 1, by omega⟩
    have hf : firstAvailable (allPresent (List.replicate (n + 1) D)) = some D := by
      rw [List.replicate_succ]
      exact firstAvailable_allPresent_cons D _
    simp [decode_file, hf]
  · intro D k m shards h
    have hk : k ≠ 0 := (encode_rs_shape D k m shards h).1
    have hlen : shards.length = k + m := by
      obtain ⟨_, parity, hpl, hsh⟩ := encode_rs_shape D k m shards h
      rw [hsh]; simp [hpl]
    rw [decode_file_rs_some, rs_count_allPresent shards, hlen, if_neg (by omega)]
    rw [Option.getD_some]
    rw [decode_improved_allPresent D k m shards h D.length]
    have hge : D.length ≤ k * ((D.length + k - 1) / k) := le_mul_ceilDiv D.length k hk
    rw [List.take_of_length_le hge]
    rw [padTo]
    congr 1
    exact List.take_left D _

/-- C2 witness: the round trip at concrete inputs (replication of
[1,2,3] with r = 2; Reed-Solomon of [1,2,3] with k = 2, m = 1, whose
shard list is [[1,2],[3,0],[3,3]]). -/
theorem decode_encode_round_trip_witness :
    decode_file (allPresent (encode_with_replication [1, 2, 3] ((2 : Nat) : Int)))
      "replication" none none (some 3) = .ok [1, 2, 3] ∧
    decode_file (allPresent [[1, 2], [3, 0], [3, 3]]) "reed-solomon"
      (some 2) (some 1) (some 3) = .ok [1, 2, 3] :=
  ⟨decode_encode_round_trip.1 [1, 2, 3] 2 (by decide),
   decode_encode_round_trip.2 [1, 2, 3] 2 1 [[1, 2], [3, 0], [3, 3]] (by rfl)⟩

/-- C9: when original_size is omitted, `decode_file` estimates it as
k times the length of the first available shard, so for every input D
whose length is not a multiple of k, decoding the full Reed-Solomon
shard set without original_size returns the zero-padded concatenation
of length k * ceil(len(D)/k) rather than D. -/
theorem decode_without_original_size_padded :
    ∀ (D : Bytes) (k m : Nat) (shards : List Bytes),
      encode_with_reed_solomon D k m = .ok shards → ¬ (k ∣ D.length) →
      decode_file (allPresent shards) "reed-solomon" (some k) (some m) none =
        .ok (padTo (k * ((D.length + k - 1) / k)) D) ∧
      padTo (k * ((D.length + k - 1) / k)) D ≠ D := by
  intro D k m shards h hdvd
  have hk : k ≠ 0 := (encode_rs_shape D k m shards h).1
  have hlen : shards.length = k + m := by
    obtain ⟨_, parity, hpl, hsh⟩ := encode_rs_shape D k m shards h
    rw [hsh]; simp [hpl]
  have hge : D.length ≤ k * ((D.length + k - 1) / k) := le_mul_ceilDiv D.length k hk
  have hne : k * ((D.length + k - 1) / k) ≠ D.length := by
    intro heq
    exact hdvd ⟨(D.length + k - 1) / k, heq.symm⟩
  constructor
  · rw [decode_file_rs_some, rs_count_allPresent shards, hlen, if_neg (by omega)]
    rw [Option.getD_none]
    rw [firstAvailable_allPresent_rs D k m shards h]
    have hbl : (padTo ((D.length + k - 1) / k) (D.take ((D.length + k - 1) / k))).length
        = (D.length + k - 1) / k := by
      have := chunk_length D ((D.length + k - 1) / k) 0
      simpa using this
    rw [Option.getD_some, hbl]
    rw [decode_improved_allPresent D k m shards h]
    rw [List.take_of_length_le hge]
    congr 1
    apply List.take_of_length_le
    rw [padTo_length_eq _ _ hge]
  · intro heq
    have h1 : (padTo (k * ((D.length + k - 1) / k)) D).length
        = k * ((D.length + k - 1) / k) := padTo_length_eq _ _ hge
    have h2 := congrArg List.length heq
    rw [h1] at h2
    exact hne h2

/-- C9 witness: D = [1,2,3], k = 2, m = 1 (3 is not a multiple of 2):
decoding without original_size returns [1,2,3,0] ≠ [1,2,3]. -/
theorem decode_without_original_size_padded_witness :
    decode_file (allPresent [[1, 2], [3, 0], [3, 3]]) "reed-solomon"
      (some 2) (some 1) none = .ok [1, 2, 3, 0] ∧
    ([1, 2, 3, 0] : Bytes) ≠ [1, 2, 3] := by
  have h := decode_without_original_size_padded [1, 2, 3] 2 1 [[1, 2], [3, 0], [3, 3]]
    (by rfl) (by decide)
  exact ⟨h.1, by decide⟩

/-- C10: Reed-Solomon encoding is systematic over the data-bearing
indices: whenever encoding succeeds, the result has exactly k+m shards
and shard i for i < k equals D[i*bs : (i+1)*bs] zero-padded to length
bs, where bs = ceil(len(D)/k). -/
theorem rs_encode_systematic :
    ∀ (D : Bytes) (k m : Nat) (shards : List Bytes) (i : Nat),
      encode_with_reed_solomon D k m = .ok shards → i < k →
      shards.length = k + m ∧
      shards.getD i [] = padTo ((D.length + k - 1) / k)
        ((D.drop (i * ((D.length + k - 1) / k))).take ((D.length + k - 1) / k)) := by
  intro D k m shards i h hi
  obtain ⟨hk, parity, hpl, hsh⟩ := encode_rs_shape D k m shards h
  subst hsh
  refine ⟨by simp [hpl], ?_⟩
  have h1 : i < ((List.range k).map (fun i =>
      padTo ((D.length + k - 1) / k)
        ((D.drop (i * ((D.length + k - 1) / k))).take ((D.length + k - 1) / k)))).length := by
    simp [hi]
  rw [List.getD_eq_getElem _ _ (by simp [hpl]; omega)]
  rw [List.getElem_append_left h1]
  simp

/-- C10 witness: D = [1,2,3], k = 2, m = 1, i = 1: three shards and
shard 1 is [3,0] (the second block, zero-padded). -/
theorem rs_encode_systematic_witness :
    ([[1, 2], [3, 0], [3, 3]] : List Bytes).length = 2 + 1 ∧
    ([[1, 2], [3, 0], [3, 3]] : List Bytes).getD 1 [] = [3, 0] := by
  have h := rs_encode_systematic [1, 2, 3] 2 1 [[1, 2], [3, 0], [3, 3]] 1
    (by rfl) (by decide)
  exact ⟨h.1, by rw [h.2]; decide⟩

/-- C1 (code evaluation at the failing input): for D = bytes [1,2] with
k = 2, m = 1, the three produced shards are [[1],[2],[1,2]]; decoding
with only shards 1 and 2 present (two of the three, so any-k-of-k+m
should succeed per the claim) returns [2,2], not the original [1,2]:
`ImprovedReedSolomon.decode` substitutes the first available block for
the missing one instead of performing Reed-Solomon erasure decoding. -/
theorem decode_missing_block_placeholder_result :
    encode_with_reed_solomon [1, 2] 2 1 = .ok [[1], [2], [1, 2]] ∧
    decode_file [(0, none), (1, some [2]), (2, some [1, 2])] "reed-solomon"
      (some 2) (some 1) (some 2) = .ok [2, 2] ∧
    ([2, 2] : Bytes) ≠ [1, 2] :=
  ⟨rfl, rfl, by decide⟩

/-- C3 counterexample: Reed-Solomon encoding of a 100-byte input with
k = 4, m = 2 yields shard lengths [25,25,25,25,4,4] — the two parity
shards are 4 bytes (one byte per data block), not 25 bytes, so not
every shard has the same fixed payload length. -/
theorem rs_parity_shard_length_cex :
    (encode_with_reed_solomon (List.replicate 100 1) 4 2).map (List.map List.length)
      = .ok [25, 25, 25, 25, 4, 4] := by rfl

theorem improved_decode_no_unknown (k : Nat) (blocks : List (Option Bytes))
    (os : Nat) :
    ImprovedReedSolomon.decode k blocks os ≠ .error .unknownAlgorithm := by
  rw [ImprovedReedSolomon.decode]
  split
  · simp
  · split
    · simp
    · dsimp only
      split
      · simp
      · simp

/-- C4 amended: the reconstruction dispatcher fails with
UnknownAlgorithm exactly for algorithm tags outside the set
{replication, reed-solomon}; in particular the XOR-parity tag is NOT
routed to a codec — it falls in the failing set — while the two
supported tags never produce UnknownAlgorithm. -/
theorem decode_file_unknown_algorithm_exact :
    (∀ (pairs : List (Nat × Option Bytes)) (k m os : Option Nat) (tag : String),
      tag ≠ "replication" → tag ≠ "reed-solomon" →
      decode_file pairs tag k m os = .error .unknownAlgorithm) ∧
    (∀ (pairs : List (Nat × Option Bytes)) (k m os : Option Nat),
      decode_file pairs "replication" k m os ≠ .error .unknownAlgorithm) ∧
    (∀ (pairs : List (Nat × Option Bytes)) (k m os : Option Nat),
      decode_file pairs "reed-solomon" k m os ≠ .error .unknownAlgorithm) := by
  refine ⟨?_, ?_, ?_⟩
  · intro pairs k m os tag h1 h2
    rw [decode_file, if_neg h1, if_neg h2]
  · intro pairs k m os
    rw [decode_file, if_pos rfl]
    cases firstAvailable pairs <;> simp
  · intro pairs k m os
    rw [decode_file, if_neg (by decide), if_pos rfl]
    split
    · simp
    · dsimp only
      split
      · simp
      · rw [decode_improved_reed_solomon]
        exact improved_decode_no_unknown _ _ _

/-- C4 counterexample: `decode_file` with the tag "xor-parity" fails
with UnknownAlgorithm instead of routing to an XOR-parity codec. -/
theorem decode_file_xor_parity_cex :
    decode_file [(0, some [1, 2])] "xor-parity" (some 1) (some 1) (some 2)
      = .error .unknownAlgorithm := rfl

/-- C4 witness: an arbitrary unknown tag yields UnknownAlgorithm. -/
theorem decode_file_unknown_algorithm_exact_witness :
    decode_file [(0, some [1, 2])] "bogus" none none none
      = .error .unknownAlgorithm :=
  decode_file_unknown_algorithm_exact.1 [(0, some [1, 2])] none none none
    "bogus" (by decide) (by decide)

/-- C7 counterexample: no InvalidParameters validation exists —
replication encode with factor 0 returns an empty shard list without
any error, and Reed-Solomon encode with k = 0 fails with
ZeroDivisionError (from `(len(data)+k-1)//k`), not InvalidParameters. -/
theorem encode_no_parameter_validation_cex :
    encode_with_replication [1, 2, 3] 0 = [] ∧
    encode_with_reed_solomon [1] 0 5 = .error .zeroDivision :=
  ⟨rfl, rfl⟩

/-- C7 amended: the encoders perform no parameter validation and never
raise InvalidParameters: replication with any factor < 1 returns an
empty shard list (no error); Reed-Solomon with k = 0 fails with
ZeroDivisionError; and no parameter combination produces an
InvalidParameters error. -/
theorem encode_no_parameter_validation :
    (∀ (D : Bytes) (r : Int), r < 1 → encode_with_replication D r = []) ∧
    (∀ (D : Bytes) (m : Nat),
      encode_with_reed_solomon D 0 m = .error .zeroDivision) ∧
    (∀ (D : Bytes) (k m : Nat),
      encode_with_reed_solomon D k m ≠ .error .invalidParameters) := by
  refine ⟨?_, ?_, ?_⟩
  · intro D r hr
    rw [encode_with_replication]
    rw [Int.toNat_of_nonpos (by omega)]
    rfl
  · intro D m
    rw [encode_with_reed_solomon, if_pos rfl]
  · intro D k m
    rw [encode_with_reed_solomon]
    split
    · simp
    · simp

/-- C7 witness: factor -2 yields an empty shard list; k = 0 yields
ZeroDivisionError; k = 1, m = 1 does not yield InvalidParameters. -/
theorem encode_no_parameter_validation_witness :
    encode_with_replication [9] (-2) = [] ∧
    encode_with_reed_solomon [9] 0 3 = .error .zeroDivision ∧
    encode_with_reed_solomon [9] 1 1 ≠ .error .invalidParameters :=
  ⟨encode_no_parameter_validation.1 [9] (-2) (by decide),
   encode_no_parameter_validation.2.1 [9] 3,
   encode_no_parameter_validation.2.2 [9] 1 1⟩

/-- C8: under the balanced policy the selector returns Replication with
replication_factor = 3 when size < 10,000,000; else Reed-Solomon with
k = 4, m = 2 when size < 1,000,000,000; else XOR-parity with
parity_disks = 2 — for every FileMetadata. -/
theorem select_balanced_thresholds (md : FileMetadata) :
    (md.size < 10000000 →
      SmartStorageEngine.select_algorithm md "balanced" = .replication 3) ∧
    (10000000 ≤ md.size → md.size < 1000000000 →
      SmartStorageEngine.select_algorithm md "balanced" = .reedSolomon 4 2) ∧
    (1000000000 ≤ md.size →
      SmartStorageEngine.select_algorithm md "balanced" = .xorParity 2) := by
  have hb : SmartStorageEngine.select_algorithm md "balanced"
      = SmartStorageEngine.select_balanced md := by
    rw [SmartStorageEngine.select_algorithm, if_neg (by decide), if_neg (by decide)]
  refine ⟨?_, ?_, ?_⟩
  · intro h1
    rw [hb, SmartStorageEngine.select_balanced, if_pos h1]
  · intro h1 h2
    rw [hb, SmartStorageEngine.select_balanced, if_neg (by omega), if_pos h2]
  · intro h1
    rw [hb, SmartStorageEngine.select_balanced, if_neg (by omega), if_neg (by omega)]

/-- C8 witness: the three size regimes at 99 bytes, 500 MB and 2 GB. -/
theorem select_balanced_thresholds_witness :
    SmartStorageEngine.select_algorithm
      ⟨"a.txt", "txt", 99, false, false, "random"⟩ "balanced" = .replication 3 ∧
    SmartStorageEngine.select_algorithm
      ⟨"b.bin", "bin", 500000000, false, false, "random"⟩ "balanced"
      = .reedSolomon 4 2 ∧
    SmartStorageEngine.select_algorithm
      ⟨"c.iso", "iso", 2000000000, false, true, "random"⟩ "balanced"
      = .xorParity 2 :=
  ⟨(select_balanced_thresholds _).1 (by decide),
   (select_balanced_thresholds _).2.1 (by decide) (by decide),
   (select_balanced_thresholds _).2.2 (by decide)⟩

/-- C5: for replication with factor r ≥ 1, for every input D and every
presence mask: if at least one of the r shards is present, decode
returns the payload of the first present shard, which equals D since
all replicas equal D; if all r shards are absent, decode fails with
InsufficientShards. -/
theorem replication_decode_first_present :
    ∀ (D : Bytes) (r : Nat) (present : Nat → Bool), 1 ≤ r →
    ((∃ i, i < r ∧ present i = true) →
      decode_file ((List.range r).map (fun i =>
        (i, if present i then some ((encode_with_replication D (r : Int)).getD i [])
            else none))) "replication" none none none = .ok D) ∧
    ((∀ i, i < r → present i = false) →
      decode_file ((List.range r).map (fun i =>
        (i, if present i then some ((encode_with_replication D (r : Int)).getD i [])
            else none))) "replication" none none none
        = .error .insufficientShards) := by
  intro D r present hr
  have hgd : ∀ i, i < r → (encode_with_replication D (r : Int)).getD i [] = D := by
    intro i hi
    have he : encode_with_replication D (r : Int) = List.replicate r D := by
      simp [encode_with_replication]
    rw [he, List.getD_eq_getElem _ _ (by simp [hi]), List.getElem_replicate]
  have hmap : ((List.range r).map (fun i =>
      (i, if present i then some ((encode_with_replication D (r : Int)).getD i [])
          else none)))
      = (List.range r).map (fun i => (i, if present i then some D else none)) := by
    apply List.map_congr_left
    intro i hi
    rw [hgd i (List.mem_range.mp hi)]
  rw [hmap]
  have hfa : firstAvailable ((List.range r).map (fun i =>
      (i, if present i then some D else none)))
      = ((List.range r).filterMap (fun i =>
          if present i then some D else none)).head? := by
    rw [firstAvailable_eq_head, List.filterMap_map]
    rfl
  constructor
  · rintro ⟨i, hi, hp⟩
    rcases hcase : (List.range r).filterMap (fun i =>
        if present i then some D else none) with _ | ⟨a, t⟩
    · exfalso
      rw [List.filterMap_eq_nil_iff] at hcase
      have h2 := hcase i (List.mem_range.mpr hi)
      rw [hp] at h2
      simp at h2
    · have hmem : a ∈ (List.range r).filterMap (fun i =>
          if present i then some D else none) := by
        rw [hcase]; exact List.mem_cons_self a t
      rw [List.mem_filterMap] at hmem
      obtain ⟨j, _, hj⟩ := hmem
      have ha : a = D := by
        by_cases hpj : present j
        · rw [if_pos hpj] at hj; exact (Option.some.inj hj).symm
        · rw [if_neg hpj] at hj; exact absurd hj (by simp)
      simp [decode_file, hfa, hcase, ha]
  · intro hnone
    have hcase : (List.range r).filterMap (fun i =>
        if present i then some D else none) = [] := by
      rw [List.filterMap_eq_nil_iff]
      intro i hi
      rw [hnone i (List.mem_range.mp hi)]
      rfl
    simp [decode_file, hfa, hcase]

/-- C5 witness: r = 3, D = [7], with only shard 1 present (decode
returns D) and with no shard present (InsufficientShards). -/
theorem replication_decode_first_present_witness :
    decode_file ((List.range 3).map (fun i =>
      (i, if decide (i = 1)
          then some ((encode_with_replication [7] ((3 : Nat) : Int)).getD i [])
          else none))) "replication" none none none = .ok [7] ∧
    decode_file ((List.range 3).map (fun i =>
      (i, if (fun _ : Nat => false) i
          then some ((encode_with_replication [7] ((3 : Nat) : Int)).getD i [])
          else none))) "replication" none none none
      = .error .insufficientShards :=
  ⟨(replication_decode_first_present [7] 3 (fun i => decide (i = 1))
      (by decide)).1 ⟨1, by decide⟩,
   (replication_decode_first_present [7] 3 (fun _ => false)
      (by decide)).2 (fun _ _ => rfl)⟩

theorem polyMul_length (p q : List Nat) :
    (polyMul p q).length = p.length + q.length - 1 := by
  simp [polyMul]

theorem rsGeneratorPoly_length : ∀ m : Nat, (rsGeneratorPoly m).length = m + 1 := by
  intro m
  induction m with
  | zero => rfl
  | succ m ih =>
    rw [rsGeneratorPoly, List.range_succ, List.foldl_append]
    rw [show (List.range m).foldl (fun g i => polyMul g [1, gfExpPow i]) [1]
      = rsGeneratorPoly m from rfl]
    simp [polyMul_length, ih]

theorem rsEccStep_length (m : Nat) (r : List Nat) (b : Nat)
    (hr : r.length = m) :
    (rsEccStep (rsGeneratorPoly m) r b).length = m := by
  simp only [rsEccStep, List.length_zipWith, List.length_append,
    List.length_tail, List.length_cons, List.length_nil, rsGeneratorPoly_length]
  omega

theorem rsEcc_length (m : Nat) (msg : List Nat) : (rsEcc m msg).length = m := by
  suffices h : ∀ (msg2 : List Nat) (r : List Nat), r.length = m →
      (msg2.foldl (rsEccStep (rsGeneratorPoly m)) r).length = m by
    exact h msg _ (by simp)
  intro msg2
  induction msg2 with
  | nil => intro r hr; simpa using hr
  | cons b t ih =>
    intro r hr
    simp only [List.foldl_cons]
    exact ih _ (rsEccStep_length m r b hr)

theorem rsLibEncode_length (m : Nat) (b : Bytes) (hb : b ≠ []) :
    (rsLibEncode m b).length = b.length + m := by
  rw [rsLibEncode, if_neg (by simp [List.isEmpty_iff, hb])]
  simp [rsEcc_length]

theorem except_map_ok_eq {ε α β : Type} (f : α → β) (x : α) :
    Except.map f (Except.ok (ε := ε) x) = Except.ok (f x) := rfl

/-- C3 amended: Reed-Solomon encoding of any 100-byte input with k = 4,
m = 2 produces exactly 6 shards: 4 data shards of 25 bytes each and 2
parity shards of 4 bytes each (parity shards have one byte per data
block, length k, not block size). -/
theorem rs_shard_lengths_100 (D : Bytes) (h100 : D.length = 100) :
    (encode_with_reed_solomon D 4 2).map (List.map List.length)
      = .ok [25, 25, 25, 25, 4, 4] := by
  simp only [encode_with_reed_solomon]
  rw [if_neg (by decide)]
  rw [show ((D.length + 4 - 1) / 4) = 25 from by rw [h100]]
  rw [except_map_ok_eq]
  congr 1
  rw [List.map_append]
  have hne : ∀ x : Nat, padTo 25 ((D.drop x).take 25) ≠ [] := by
    intro x hnil
    have h1 := chunk_length D 25 x
    rw [hnil] at h1
    simp at h1
  have hel : ∀ x : Nat,
      (rsLibEncode 2 (padTo 25 ((D.drop x).take 25))).length = 27 := by
    intro x
    rw [rsLibEncode_length 2 _ (hne x), chunk_length]
  have h0 : (padTo 25 (D.take 25)).length = 25 := by
    have h1 := chunk_length D 25 0
    simpa using h1
  have hel0 : (rsLibEncode 2 (padTo 25 (D.take 25))).length = 27 := by
    have h1 := hel 0
    simpa using h1
  have hdata : ((List.range 4).map
      (fun i => padTo 25 ((D.drop (i * 25)).take 25))).map List.length
      = [25, 25, 25, 25] := by
    rw [show (List.range 4) = [0, 1, 2, 3] from rfl]
    simp [chunk_length, h0]
  have hpar : ((List.range 2).map (fun i =>
      ((((List.range 4).map (fun j => padTo 25 ((D.drop (j * 25)).take 25))).map
        (rsLibEncode 2)).map
          (fun eb => (eb.drop (25 + i)).take 1)).flatten)).map List.length
      = [4, 4] := by
    rw [show (List.range 2) = [0, 1] from rfl,
      show (List.range 4) = [0, 1, 2, 3] from rfl]
    simp [List.length_take, List.length_drop, hel, hel0]
  rw [hdata, hpar]
  rfl

/-- C3 amended witness: instantiated at the 100-byte input
`List.range 100`. -/
theorem rs_shard_lengths_100_witness :
    (encode_with_reed_solomon (List.range 100) 4 2).map (List.map List.length)
      = .ok [25, 25, 25, 25, 4, 4] :=
  rs_shard_lengths_100 (List.range 100) (by simp)

theorem xorBytes_length (a b : Bytes) :
    (xorBytes a b).length = min a.length b.length := by
  simp [xorBytes]

theorem xorBytes_comm (a b : Bytes) : xorBytes a b = xorBytes b a :=
  List.zipWith_comm_of_comm _ Nat.xor_comm a b

theorem xorBytes_assoc : ∀ (a b c : Bytes),
    xorBytes (xorBytes a b) c = xorBytes a (xorBytes b c) := by
  intro a
  induction a with
  | nil => intro b c; simp [xorBytes]
  | cons x t ih =>
    intro b c
    cases b with
    | nil => simp [xorBytes]
    | cons y u =>
      cases c with
      | nil => simp [xorBytes]
      | cons z v =>
        simp only [xorBytes, List.zipWith_cons_cons] at *
        congr 1
        · exact Nat.xor_assoc x y z
        · exact ih u v

theorem xorBytes_self (a : Bytes) : xorBytes a a = List.replicate a.length 0 := by
  induction a with
  | nil => rfl
  | cons x t ih =>
    simp only [xorBytes, List.zipWith_cons_cons, List.length_cons,
      List.replicate_succ] at *
    rw [ih]
    congr 1
    exact Nat.xor_self x

theorem xorBytes_zeros (a : Bytes) :
    xorBytes (List.replicate a.length 0) a = a := by
  induction a with
  | nil => rfl
  | cons x t ih =>
    simp only [xorBytes, List.length_cons, List.replicate_succ,
      List.zipWith_cons_cons] at *
    rw [ih]
    congr 1
    exact Nat.zero_xor x

theorem xorBytes_swap (a c d : Bytes) :
    xorBytes a (xorBytes c d) = xorBytes c (xorBytes a d) := by
  rw [← xorBytes_assoc, xorBytes_comm a c, xorBytes_assoc]

theorem xfold_length (bs : Nat) : ∀ (l : List Bytes),
    (∀ b ∈ l, b.length = bs) →
    (l.foldr xorBytes (List.replicate bs 0)).length = bs := by
  intro l
  induction l with
  | nil => intro _; simp
  | cons b t ih =>
    intro hl
    simp only [List.foldr_cons, xorBytes_length]
    rw [ih (fun x hx => hl x (List.mem_cons_of_mem b hx)),
      hl b (List.mem_cons_self b t)]
    simp

theorem xfold_init_out (bs : Nat) : ∀ (l : List Bytes) (x : Bytes),
    x.length = bs → (∀ b ∈ l, b.length = bs) →
    l.foldr xorBytes x
      = xorBytes (l.foldr xorBytes (List.replicate bs 0)) x := by
  intro l
  induction l with
  | nil =>
    intro x hx _
    subst hx
    rw [List.foldr_nil, List.foldr_nil, xorBytes_zeros]
  | cons b t ih =>
    intro x hx hl
    simp only [List.foldr_cons]
    rw [ih x hx (fun y hy => hl y (List.mem_cons_of_mem b hy)), ← xorBytes_assoc]

theorem xfold_erase (bs : Nat) : ∀ (l : List Bytes) (j : Nat) (h : j < l.length),
    l.foldr xorBytes (List.replicate bs 0)
      = xorBytes (l.get ⟨j, h⟩)
          ((l.eraseIdx j).foldr xorBytes (List.replicate bs 0)) := by
  intro l
  induction l with
  | nil => intro j h; simp at h
  | cons b t ih =>
    intro j h
    cases j with
    | zero => rfl
    | succ j =>
      have hj : j < t.length := by simpa using h
      simp only [List.foldr_cons, List.eraseIdx_cons_succ, List.get_cons_succ]
      rw [ih j hj, xorBytes_swap]

theorem xor_recover (bs : Nat) (l : List Bytes) (j : Nat) (h : j < l.length)
    (hl : ∀ b ∈ l, b.length = bs) :
    (l.eraseIdx j).foldr xorBytes (l.foldr xorBytes (List.replicate bs 0))
      = l.get ⟨j, h⟩ := by
  have hlE : ∀ b ∈ l.eraseIdx j, b.length = bs :=
    fun b hb => hl b ((List.eraseIdx_sublist l j).subset hb)
  have hXl : (l.foldr xorBytes (List.replicate bs 0)).length = bs :=
    xfold_length bs l hl
  rw [xfold_init_out bs _ _ hXl hlE]
  rw [xfold_erase bs l j h]
  rw [xorBytes_swap, xorBytes_self]
  rw [xfold_length bs _ hlE]
  rw [xorBytes_comm]
  have hg : (l.get ⟨j, h⟩).length = bs := hl _ (l.get_mem j h)
  rw [← hg, xorBytes_zeros]

theorem filterMap_id_set_none : ∀ (l : List Bytes) (j : Nat), j < l.length →
    ((l.map some).set j none).filterMap id = l.eraseIdx j := by
  intro l
  induction l with
  | nil => intro j h; simp at h
  | cons x t ih =>
    intro j h
    cases j with
    | zero =>
      simp only [List.map_cons, List.set_cons_zero, List.filterMap_cons,
        List.eraseIdx_cons_zero]
      exact filterMap_id_map_some t
    | succ j =>
      simp only [List.map_cons, List.set_cons_succ, List.filterMap_cons,
        List.eraseIdx_cons_succ]
      rw [ih j (by simpa using h)]
      rfl

theorem filter_isNone_map_some (l : List Bytes) :
    (l.map some).filter Option.isNone = [] := by
  induction l with
  | nil => rfl
  | cons x t ih => simp [List.filter_cons, ih]

theorem filter_isNone_set_none : ∀ (l : List Bytes) (j : Nat), j < l.length →
    (((l.map some).set j none).filter Option.isNone).length = 1 := by
  intro l
  induction l with
  | nil => intro j h; simp at h
  | cons x t ih =>
    intro j h
    cases j with
    | zero =>
      simp only [List.map_cons, List.set_cons_zero, List.filter_cons]
      simp [filter_isNone_map_some]
    | succ j =>
      simp only [List.map_cons, List.set_cons_succ, List.filter_cons]
      simpa using ih j (by simpa using h)

theorem map_getD_set_none : ∀ (l : List Bytes) (j : Nat) (rec : Bytes),
    ((l.map some).set j none).map (fun b => b.getD rec) = l.set j rec := by
  intro l
  induction l with
  | nil => intro j rec; simp
  | cons x t ih =>
    intro j rec
    cases j with
    | zero =>
      have hcomp : ((fun b => b.getD rec) ∘ some) = @id Bytes :=
        funext fun y => rfl
      simp [hcomp]
    | succ j =>
      simp only [List.map_cons, List.set_cons_succ]
      rw [ih j rec]
      rfl

theorem set_get_self : ∀ (l : List Bytes) (j : Nat) (h : j < l.length),
    l.set j (l.get ⟨j, h⟩) = l := by
  intro l
  induction l with
  | nil => intro j h; simp at h
  | cons x t ih =>
    intro j h
    cases j with
    | zero => rfl
    | succ j =>
      simp only [List.get_cons_succ, List.set_cons_succ]
      rw [ih j (by simpa using h)]

theorem all_isSome_set_none_false : ∀ (l : List Bytes) (j : Nat), j < l.length →
    ((l.map some).set j none).all Option.isSome = false := by
  intro l
  induction l with
  | nil => intro j h; simp at h
  | cons x t ih =>
    intro j h
    cases j with
    | zero => simp
    | succ j =>
      simp only [List.map_cons, List.set_cons_succ, List.all_cons]
      rw [ih j (by simpa using h)]
      rfl

theorem rangeMap_getD_left (n : Nat) (A B : List (Option Bytes))
    (h : A.length = n) :
    (List.range n).map (fun i => (A ++ B).getD i none) = A := by
  apply List.ext_getElem
  · simp [h]
  · intro i h1 h2
    simp only [List.getElem_map, List.getElem_range]
    have hi : i < A.length := by simpa [h] using h2
    rw [List.getD_eq_getElem _ _ (by simp; omega)]
    exact List.getElem_append_left hi

theorem xorParityDecode_recover (p : Nat) (input : List (Option Bytes))
    (par : Bytes) (os : Nat)
    (h1 : ((List.range (p + 1)).map (fun i => input.getD i none)).all
      Option.isSome = false)
    (h2 : (((List.range (p + 1)).map (fun i => input.getD i none)).filter
      Option.isNone).length = 1)
    (h3 : ((input.drop (p + 1)).filterMap id).head? = some par) :
    xorParityDecode p input os =
      .ok ((((List.range (p + 1)).map (fun i => input.getD i none)).map
        (fun b => b.getD
          ((((List.range (p + 1)).map (fun i => input.getD i none)).filterMap
            id).foldr xorBytes par))).flatten.take os) := by
  simp only [xorParityDecode]
  rw [if_neg (by rw [h1]; simp)]
  rw [h2, h3]

theorem head_filterMap_replicate_some (p : Nat) (x : Bytes) (hp : 1 ≤ p) :
    ((List.replicate p (some x)).filterMap id).head? = some x := by
  cases p with
  | zero => omega
  | succ q => simp [List.replicate_succ, List.filterMap_cons]

/-- C6 (spec-modelled; no XOR-parity codec exists under src/): with
parityDisks = p, encoding splits the data into p+1 zero-padded blocks
of size ceil(len/(p+1)) and each parity shard is the byte-wise XOR of
all data blocks (for every p, p = 0 included); decoding with exactly
one data block j missing and at least one parity shard present — for an
arbitrary parity-presence mask — recovers the missing block by XOR-ing
all present data blocks with a parity shard, and the trimmed result
equals the original data. -/
theorem xor_parity_single_loss_recovery :
    ∀ (D : Bytes) (p : Nat),
    ((xorParityEncode D p).length = (p + 1) + p ∧
     (∀ i, i < p + 1 → (xorParityEncode D p).getD i []
       = padTo ((D.length + p) / (p + 1))
           ((D.drop (i * ((D.length + p) / (p + 1)))).take
             ((D.length + p) / (p + 1)))) ∧
     (∀ q, q < p → (xorParityEncode D p).getD ((p + 1) + q) []
       = ((xorParityEncode D p).take (p + 1)).foldr xorBytes
           (List.replicate ((D.length + p) / (p + 1)) 0))) ∧
    (∀ (j : Nat) (pmask : Nat → Bool), j < p + 1 →
      (∃ q, q < p ∧ pmask q = true) →
      xorParityDecode p
        ((((xorParityEncode D p).take (p + 1)).map some).set j none
          ++ (List.range p).map (fun q =>
            if pmask q then some ((xorParityEncode D p).getD ((p + 1) + q) [])
            else none)) D.length = .ok D) := by
  intro D p
  have hE : xorParityEncode D p =
      ((List.range (p + 1)).map (fun i =>
        padTo ((D.length + p) / (p + 1))
          ((D.drop (i * ((D.length + p) / (p + 1)))).take
            ((D.length + p) / (p + 1)))))
      ++ List.replicate p
        (((List.range (p + 1)).map (fun i =>
          padTo ((D.length + p) / (p + 1))
            ((D.drop (i * ((D.length + p) / (p + 1)))).take
              ((D.length + p) / (p + 1))))).foldr
          xorBytes (List.replicate ((D.length + p) / (p + 1)) 0)) := rfl
  have hbsge : D.length ≤ (p + 1) * ((D.length + p) / (p + 1)) := by
    have h0 := le_mul_ceilDiv D.length (p + 1) (by omega)
    have h1 : D.length + (p + 1) - 1 = D.length + p := by omega
    rw [h1] at h0
    exact h0
  refine ⟨⟨?_, ?_, ?_⟩, ?_⟩
  · rw [hE]; simp
  · intro i hi
    rw [hE]
    rw [List.getD_eq_getElem _ _ (by simp; omega)]
    rw [List.getElem_append_left (by simp [hi])]
    simp
  · intro q hq
    rw [hE]
    rw [List.take_left' (by simp)]
    rw [List.getD_eq_getElem _ _ (by simp; omega)]
    rw [List.getElem_append_right (by simp)]
    simp
  · intro j pmask hj hex
    rw [hE]
    rw [List.take_left' (by simp)]
    set B := (List.range (p + 1)).map (fun i =>
      padTo ((D.length + p) / (p + 1))
        ((D.drop (i * ((D.length + p) / (p + 1)))).take
          ((D.length + p) / (p + 1)))) with hB
    set par := B.foldr xorBytes
      (List.replicate ((D.length + p) / (p + 1)) 0) with hpar
    have hBlen : B.length = p + 1 := by rw [hB]; simp
    have hjB : j < B.length := by omega
    have hBmem : ∀ b ∈ B, b.length = (D.length + p) / (p + 1) := by
      intro b hb
      rw [hB] at hb
      obtain ⟨i, _, rfl⟩ := List.mem_map.mp hb
      exact chunk_length D _ _
    have hgd : ∀ q, q < p →
        (B ++ List.replicate p par).getD ((p + 1) + q) [] = par := by
      intro q hq
      rw [List.getD_eq_getElem _ _ (by simp [hBlen]; omega)]
      rw [List.getElem_append_right (by rw [hBlen]; omega)]
      simp
    have hparmap : (List.range p).map (fun q =>
        if pmask q then some ((B ++ List.replicate p par).getD ((p + 1) + q) [])
        else none)
        = (List.range p).map (fun q => if pmask q then some par else none) := by
      apply List.map_congr_left
      intro q hq
      rw [hgd q (List.mem_range.mp hq)]
    rw [hparmap]
    have hdat : (List.range (p + 1)).map (fun i =>
        (((B.map some).set j none)
          ++ (List.range p).map (fun q => if pmask q then some par else none)).getD
            i none)
        = (B.map some).set j none :=
      rangeMap_getD_left (p + 1) _ _ (by simp [hBlen])
    have h1 : ((List.range (p + 1)).map (fun i =>
        (((B.map some).set j none)
          ++ (List.range p).map (fun q => if pmask q then some par else none)).getD
            i none)).all Option.isSome = false := by
      rw [hdat]; exact all_isSome_set_none_false B j hjB
    have h2 : (((List.range (p + 1)).map (fun i =>
        (((B.map some).set j none)
          ++ (List.range p).map (fun q => if pmask q then some par else none)).getD
            i none)).filter Option.isNone).length = 1 := by
      rw [hdat]; exact filter_isNone_set_none B j hjB
    have hcomp : ((List.range p).map (fun q =>
        if pmask q then some par else none)).filterMap id
        = (List.range p).filterMap (fun q =>
            if pmask q then some par else none) := by
      rw [List.filterMap_map]; rfl
    have h3 : (((((B.map some).set j none)
        ++ (List.range p).map (fun q =>
          if pmask q then some par else none)).drop (p + 1)).filterMap
          id).head? = some par := by
      rw [List.drop_left' (by simp [hBlen])]
      rw [hcomp]
      obtain ⟨q0, hq0, hpq0⟩ := hex
      rcases hcase : (List.range p).filterMap (fun q =>
          if pmask q then some par else none) with _ | ⟨a, t⟩
      · exfalso
        rw [List.filterMap_eq_nil_iff] at hcase
        have h4 := hcase q0 (List.mem_range.mpr hq0)
        rw [hpq0] at h4
        simp at h4
      · have hmem : a ∈ (List.range p).filterMap (fun q =>
            if pmask q then some par else none) := by
          rw [hcase]; exact List.mem_cons_self a t
        rw [List.mem_filterMap] at hmem
        obtain ⟨q1, _, hq1⟩ := hmem
        have ha : a = par := by
          by_cases hpq1 : pmask q1
          · rw [if_pos hpq1] at hq1; exact (Option.some.inj hq1).symm
          · rw [if_neg hpq1] at hq1; exact absurd hq1 (by simp)
        simp [ha]
    rw [xorParityDecode_recover p _ par D.length h1 h2 h3]
    rw [hdat]
    rw [filterMap_id_set_none B j hjB]
    rw [hpar]
    rw [xor_recover ((D.length + p) / (p + 1)) B j hjB hBmem]
    rw [map_getD_set_none B j _]
    rw [set_get_self B j hjB]
    rw [hB]
    rw [chunks_flatten]
    rw [List.take_of_length_le hbsge]
    rw [padTo]
    congr 1
    exact List.take_left D _

/-- C6 witness: the spec scenario (3): 9-byte input [1..9] with
parityDisks = 1 (two 5-byte data blocks + one parity block), data
block 0 missing and the parity shard present via the mask q = 0 —
decode returns the original 9 bytes; plus the encode-shape facts at the
same input (3 shards, data shard 0 is the first 5 bytes, the parity
shard is the XOR of the data blocks). -/
theorem xor_parity_single_loss_recovery_witness :
    (xorParityEncode [1, 2, 3, 4, 5, 6, 7, 8, 9] 1).length = 2 + 1 ∧
    (xorParityEncode [1, 2, 3, 4, 5, 6, 7, 8, 9] 1).getD 0 [] = [1, 2, 3, 4, 5] ∧
    (xorParityEncode [1, 2, 3, 4, 5, 6, 7, 8, 9] 1).getD 2 []
      = ((xorParityEncode [1, 2, 3, 4, 5, 6, 7, 8, 9] 1).take 2).foldr xorBytes
          (List.replicate 5 0) ∧
    xorParityDecode 1
      ((((xorParityEncode [1, 2, 3, 4, 5, 6, 7, 8, 9] 1).take 2).map some).set
        0 none
        ++ (List.range 1).map (fun q =>
          if decide (q = 0)
          then some ((xorParityEncode [1, 2, 3, 4, 5, 6, 7, 8, 9] 1).getD
            (2 + q) [])
          else none)) 9 = .ok [1, 2, 3, 4, 5, 6, 7, 8, 9] := by
  have h := xor_parity_single_loss_recovery [1, 2, 3, 4, 5, 6, 7, 8, 9] 1
  refine ⟨h.1.1, ?_, h.1.2.2 0 (by decide),
    h.2 0 (fun q => decide (q = 0)) (by decide) ⟨0, by decide⟩⟩
  rw [h.1.2.1 0 (by decide)]
  decide
